import Mathlib

/-!
Verification of the line-graph-with-shortcuts shortest-path solver
(`src/main.rs`).

Embedding notes:

* Rust `usize` is modelled as `Nat`; `usize::MAX` is the constant
  `usizeMAX = 2 ^ 64 - 1`.  No arithmetic in the program can overflow: every
  cost inserted into the heap satisfies `cost < usizeMAX` (an invariant proved
  below), so `cost + 1` never wraps and plain `Nat` addition is faithful.
* `BinaryHeap<State>` is modelled as a `List State` kept sorted in decreasing
  heap order (greatest first), so that taking the head of the list is exactly
  `BinaryHeap::pop` (which returns a greatest element under `Ord`; the `Ord`
  instance on `State` is a total order in which distinct values never compare
  equal, so the popped value is uniquely determined).  `heapInsert` is
  `BinaryHeap::push`.
* Vector indexing `self.distances[i]` is modelled with `List.getD _ i 0`.
  The Rust program panics on an out-of-range index; all theorems below are
  stated under hypotheses that keep every index in range (invariants of the
  real executions), where `getD` agrees with the source.
* The construction `LinearDijkstra::new` writes `distances[0] = 0`, which
  panics when `n = 0`; `LinearDijkstra.new?` models this fallibility, and
  `LinearDijkstra.new` is the (total) successful case used for `n ≥ 1`.
-/

/-- `usize::MAX` on a 64-bit target. -/
def usizeMAX : Nat := 2 ^ 64 - 1

/-- `struct State { cost: usize, position: usize }` from the source. -/
structure State where
  cost : Nat
  position : Nat
deriving DecidableEq, Repr

/-- `impl Ord for State`: `other.cost.cmp(&self.cost).then_with(|| self.position.cmp(&other.position))`.
The cost comparison is flipped (the source wants min-cost extraction from a
max-heap); the position comparison is not flipped. -/
def stateCmp (a b : State) : Ordering :=
  (compare b.cost a.cost).then (compare a.position b.position)

/-- `BinaryHeap::push`: insert into the list model, keeping greatest-first
order (an element moves past everything strictly greater than it). -/
def heapInsert (st : State) : List State → List State
  | [] => [st]
  | x :: xs => if stateCmp st x = Ordering.lt then x :: heapInsert st xs else st :: x :: xs

/-- `struct LinearDijkstra { distances: Vec<usize>, heap: BinaryHeap<State> }`. -/
structure LinearDijkstra where
  distances : List Nat
  heap : List State
deriving DecidableEq, Repr

/-- Read `self.distances[i]` (in-range in all verified executions). -/
def LinearDijkstra.distGet (s : LinearDijkstra) (i : Nat) : Nat :=
  s.distances.getD i 0

/-- `LinearDijkstra::new(n)` for `n ≥ 1`: distances all `usize::MAX`, then
`distances[0] = 0`, and the heap holds the single state `{cost: 0, position: 0}`. -/
def LinearDijkstra.new (n : Nat) : LinearDijkstra :=
  { distances := (List.replicate n usizeMAX).set 0 0,
    heap := [⟨0, 0⟩] }

/-- `LinearDijkstra::new(n)` including its failure mode: the write
`distances[0] = 0` panics (index out of bounds) exactly when `n = 0`. -/
def LinearDijkstra.new? (n : Nat) : Option LinearDijkstra :=
  if 0 < n then some (LinearDijkstra.new n) else none

/-- `LinearDijkstra::push`: record the candidate only if it strictly improves
the current table entry. -/
def LinearDijkstra.push (s : LinearDijkstra) (st : State) : LinearDijkstra :=
  if st.cost < s.distGet st.position then
    { distances := s.distances.set st.position st.cost,
      heap := heapInsert st s.heap }
  else s

/-- The body run by `pop` on a non-stale extraction `st` (with `rest` the heap
after the extraction): push the forward neighbour if `position + 1 < n` and
then the backward neighbour if `position > 0`, as in the source. -/
def popPushNeighbors (d : List Nat) (st : State) (rest : List State) : LinearDijkstra :=
  let s1 :=
    if st.position + 1 < d.length then
      LinearDijkstra.push ⟨d, rest⟩ ⟨st.cost + 1, st.position + 1⟩
    else ⟨d, rest⟩
  if st.position > 0 then s1.push ⟨st.cost + 1, st.position - 1⟩ else s1

/-- The `while let Some(...) = self.heap.pop()` loop of `LinearDijkstra::pop`,
with the heap passed explicitly (extraction = taking the head of the sorted
list model). -/
def popGo (d : List Nat) : List State → Option State × LinearDijkstra
  | [] => (none, ⟨d, []⟩)
  | st :: rest =>
    if st.cost > d.getD st.position 0 then popGo d rest
    else (some st, popPushNeighbors d st rest)

/-- `LinearDijkstra::pop`. -/
def LinearDijkstra.pop (s : LinearDijkstra) : Option State × LinearDijkstra :=
  popGo s.distances s.heap

/-- One iteration of the driver loop in `main`: pop, and on a returned
`(cost, position)` push `State {cost: cost + 1, position: shortcuts[position]}`.
Returns `none` when `pop` returned `None` (loop exit). -/
def driverStep (shortcuts : List Nat) (s : LinearDijkstra) : Option LinearDijkstra :=
  match s.pop with
  | (none, _) => none
  | (some st, s1) => some (s1.push ⟨st.cost + 1, shortcuts.getD st.position 0⟩)

/-- The driver loop of `main`, with an explicit fuel bound (the loop is proved
below to exit within `solveFuel n` iterations). -/
def runLoop (shortcuts : List Nat) : Nat → LinearDijkstra → LinearDijkstra
  | 0, s => s
  | fuel + 1, s =>
    match driverStep shortcuts s with
    | none => s
    | some s1 => runLoop shortcuts fuel s1

/-- Fuel that provably suffices for the driver loop to drain. -/
def solveFuel (n : Nat) : Nat := n * usizeMAX + n + 1

/-- The whole computation of `main` after parsing: build the solver and run
the driver loop to exhaustion. -/
def solve (n : Nat) (shortcuts : List Nat) : LinearDijkstra :=
  runLoop shortcuts (solveFuel n) (LinearDijkstra.new n)

/-! ## Sequences of API calls

The solver is driven through `push` and `pop` only; these definitions run an
arbitrary interleaving of the two calls, as the invariants claims require. -/

/-- One API call against the solver. -/
inductive SolverOp where
  | push (st : State)
  | pop
deriving DecidableEq, Repr

/-- The solver state after one API call (a pop's returned candidate is
dropped here; `runTrace` collects it). -/
def applyOp (s : LinearDijkstra) : SolverOp → LinearDijkstra
  | SolverOp.push st => s.push st
  | SolverOp.pop => (s.pop).2

/-- The solver state after a sequence of API calls. -/
def execOps (s : LinearDijkstra) : List SolverOp → LinearDijkstra
  | [] => s
  | op :: ops => execOps (applyOp s op) ops

/-- Run a sequence of API calls and collect the candidates returned by the
`pop` calls, in order. -/
def runTrace (s : LinearDijkstra) : List SolverOp → List State
  | [] => []
  | SolverOp.push st :: ops => runTrace (s.push st) ops
  | SolverOp.pop :: ops =>
    match s.pop with
    | (none, s1) => runTrace s1 ops
    | (some st, s1) => st :: runTrace s1 ops

/-- Invariant tying a run's already-returned candidates `R` to the current
state: the queue is well-formed (entries at least the table value) and
duplicate-free, and every returned candidate is gone from the queue with its
table entry never exceeding its cost again. -/
def TraceInv (s : LinearDijkstra) (R : List State) : Prop :=
  (∀ a ∈ s.heap, s.distGet a.position ≤ a.cost) ∧
  s.heap.Nodup ∧
  ∀ a ∈ R, a ∉ s.heap ∧ s.distGet a.position ≤ a.cost

/-! ## The specification-side graph

The graph named by the claims: nodes `0 .. n-1`, unit-cost line edges between
`i` and `i + 1` in both directions, and a unit-cost directed shortcut edge
from `i` to `shortcuts[i]`. -/

/-- There is a (unit-cost) edge from `u` to `v`. -/
def IsEdge (n : Nat) (shortcuts : List Nat) (u v : Nat) : Prop :=
  u < n ∧ v < n ∧ (v = u + 1 ∨ u = v + 1 ∨ v = shortcuts.getD u 0)

/-- `HasPath n shortcuts v k`: there is a walk of exactly `k` edges from node
`0` to node `v`.  The true shortest-path cost to `v` is the least such `k`. -/
inductive HasPath (n : Nat) (shortcuts : List Nat) : Nat → Nat → Prop
  | refl : HasPath n shortcuts 0 0
  | step {u v k : Nat} : HasPath n shortcuts u k → IsEdge n shortcuts u v →
      HasPath n shortcuts v (k + 1)

/-! ## List helper lemmas -/

theorem getD_eq_zero_of_le {l : List Nat} {i : Nat} (h : l.length ≤ i) :
    l.getD i 0 = 0 := by
  simp [List.getD_eq_getElem?_getD, List.getElem?_eq_none h]

theorem getD_set_self {l : List Nat} {i v : Nat} (hi : i < l.length) :
    (l.set i v).getD i 0 = v := by
  simp [List.getD_eq_getElem?_getD, List.getElem?_set_self hi]

theorem getD_set_ne {l : List Nat} {i j v : Nat} (h : i ≠ j) :
    (l.set i v).getD j 0 = l.getD j 0 := by
  simp [List.getD_eq_getElem?_getD, List.getElem?_set_ne h]

theorem sum_set_lt : ∀ {l : List Nat} {i v : Nat}, i < l.length → v < l.getD i 0 →
    (l.set i v).sum < l.sum
  | a :: t, 0, v, _, hv => by
      simp only [List.getD_cons_zero] at hv
      simp only [List.set, List.sum_cons]
      omega
  | a :: t, i + 1, v, hi, hv => by
      have ih := sum_set_lt (l := t) (i := i) (v := v)
        (by simpa using hi) (by simpa using hv)
      simp only [List.set, List.sum_cons]
      omega

theorem sum_le_of_forall_le : ∀ {l : List Nat} {B : Nat}, (∀ x ∈ l, x ≤ B) →
    l.sum ≤ l.length * B
  | [], _, _ => by simp
  | a :: t, B, h => by
      have ih := sum_le_of_forall_le (l := t) (B := B) fun x hx => h x (List.mem_cons_of_mem _ hx)
      have ha := h a (List.mem_cons_self _ _)
      simp only [List.sum_cons, List.length_cons]
      calc a + t.sum ≤ B + t.length * B := Nat.add_le_add ha ih
        _ = (t.length + 1) * B := by ring

/-! ## Heap model lemmas -/

theorem mem_heapInsert {a st : State} : ∀ {h : List State},
    (a ∈ heapInsert st h ↔ a = st ∨ a ∈ h)
  | [] => by simp [heapInsert]
  | x :: xs => by
      simp only [heapInsert]
      split
      · simp only [List.mem_cons, mem_heapInsert (h := xs)]
        tauto
      · simp only [List.mem_cons]

theorem self_mem_heapInsert (st : State) (h : List State) : st ∈ heapInsert st h :=
  mem_heapInsert.mpr (Or.inl rfl)

theorem length_heapInsert (st : State) : ∀ (h : List State),
    (heapInsert st h).length = h.length + 1
  | [] => rfl
  | x :: xs => by
      simp only [heapInsert]
      split
      · simp [length_heapInsert st xs]
      · simp

/-! ## Push lemmas -/

theorem push_of_not_lt {s : LinearDijkstra} {st : State}
    (h : ¬ st.cost < s.distGet st.position) : s.push st = s := by
  simp [LinearDijkstra.push, h]

theorem push_of_lt {s : LinearDijkstra} {st : State}
    (h : st.cost < s.distGet st.position) :
    s.push st = ⟨s.distances.set st.position st.cost, heapInsert st s.heap⟩ := by
  simp [LinearDijkstra.push, h]

theorem pos_lt_of_push_lt {s : LinearDijkstra} {st : State}
    (h : st.cost < s.distGet st.position) : st.position < s.distances.length := by
  by_contra hge
  rw [LinearDijkstra.distGet, getD_eq_zero_of_le (Nat.le_of_not_lt hge)] at h
  omega

theorem push_distances_length (s : LinearDijkstra) (st : State) :
    (s.push st).distances.length = s.distances.length := by
  unfold LinearDijkstra.push
  split <;> simp

theorem push_distGet_le (s : LinearDijkstra) (st : State) (i : Nat) :
    (s.push st).distGet i ≤ s.distGet i := by
  unfold LinearDijkstra.push
  split
  · case isTrue hlt =>
      by_cases hij : st.position = i
      · subst hij
        simp only [LinearDijkstra.distGet, getD_set_self (pos_lt_of_push_lt hlt)]
        exact Nat.le_of_lt hlt
      · simp only [LinearDijkstra.distGet]
        rw [getD_set_ne hij]
  · exact Nat.le_refl _

theorem push_distGet_ne (s : LinearDijkstra) (st : State) {i : Nat}
    (h : i ≠ st.position) : (s.push st).distGet i = s.distGet i := by
  unfold LinearDijkstra.push
  split
  · simp only [LinearDijkstra.distGet]
    rw [getD_set_ne (Ne.symm h)]
  · rfl

theorem push_relax (s : LinearDijkstra) (st : State) :
    (s.push st).distGet st.position ≤ st.cost := by
  unfold LinearDijkstra.push
  split
  · case isTrue hlt =>
      simp only [LinearDijkstra.distGet]
      rw [getD_set_self (pos_lt_of_push_lt hlt)]
  · case isFalse h => exact Nat.le_of_not_lt h

theorem push_mem_heap {s : LinearDijkstra} {st a : State} (h : a ∈ s.heap) :
    a ∈ (s.push st).heap := by
  unfold LinearDijkstra.push
  split
  · exact mem_heapInsert.mpr (Or.inr h)
  · exact h

theorem push_heap_cases {s : LinearDijkstra} {st a : State} (h : a ∈ (s.push st).heap) :
    a = st ∨ a ∈ s.heap := by
  by_cases hlt : st.cost < s.distGet st.position
  · rw [push_of_lt hlt] at h
    exact mem_heapInsert.mp h
  · rw [push_of_not_lt hlt] at h
    exact Or.inr h

/-! ## Pop lemmas -/

theorem popGo_none_ex : ∀ {h : List State} {d : List Nat} {s1 : LinearDijkstra},
    popGo d h = (none, s1) →
    s1 = ⟨d, []⟩ ∧ ∀ st ∈ h, d.getD st.position 0 < st.cost
  | [], d, s1 => by
      intro heq
      simp only [popGo, Prod.mk.injEq] at heq
      exact ⟨heq.2.symm, by simp⟩
  | x :: xs, d, s1 => by
      simp only [popGo]
      split
      · case isTrue hx =>
          intro heq
          obtain ⟨h1, h2⟩ := popGo_none_ex heq
          refine ⟨h1, ?_⟩
          intro st hst
          rcases List.mem_cons.mp hst with h | h
          · subst h; exact hx
          · exact h2 st h
      · intro heq
        simp at heq

theorem popGo_some_ex : ∀ {h : List State} {d : List Nat} {st : State} {s1 : LinearDijkstra},
    popGo d h = (some st, s1) →
    ∃ pre rest, h = pre ++ st :: rest ∧
      (∀ x ∈ pre, d.getD x.position 0 < x.cost) ∧
      ¬ d.getD st.position 0 < st.cost ∧
      s1 = popPushNeighbors d st rest
  | [], d, st, s1 => by
      intro heq
      simp [popGo] at heq
  | x :: xs, d, st, s1 => by
      simp only [popGo]
      split
      · case isTrue hx =>
          intro heq
          obtain ⟨pre, rest, hsplit, hpre, hfresh, hs1⟩ := popGo_some_ex heq
          refine ⟨x :: pre, rest, by simp [hsplit], ?_, hfresh, hs1⟩
          intro y hy
          rcases List.mem_cons.mp hy with h | h
          · subst h; exact hx
          · exact hpre y h
      · case isFalse hx =>
          intro heq
          rw [Prod.mk.injEq] at heq
          obtain ⟨h1, h2⟩ := heq
          injection h1 with hxst
          subst hxst
          exact ⟨[], xs, rfl, by simp, hx, h2.symm⟩

/-! ## The driver invariant -/

/-- Well-formedness of the queue: every queued candidate has an in-range
position, its cost is at least the current table entry (so a returned
candidate's cost equals the table entry), and its cost is below `usize::MAX`
(so `cost + 1` cannot overflow). -/
def HeapWF (n : Nat) (s : LinearDijkstra) : Prop :=
  ∀ st ∈ s.heap, st.position < n ∧ s.distGet st.position ≤ st.cost ∧ st.cost < usizeMAX

/-- All out-edges of `u` are relaxed in the current table. -/
def Relaxed (n : Nat) (sc : List Nat) (s : LinearDijkstra) (u : Nat) : Prop :=
  ∀ v, IsEdge n sc u v → s.distGet v ≤ s.distGet u + 1

/-- The inductive invariant of the driver loop: the table has size `n` with
`distance[0] = 0`, all entries bounded by `usize::MAX`, every finite entry is
realised by an actual walk from node `0`, the queue is well-formed, and every
node either has all its out-edges relaxed or has a fresh (non-stale) candidate
pending in the queue. -/
def DriverInv (n : Nat) (sc : List Nat) (s : LinearDijkstra) : Prop :=
  s.distances.length = n ∧
  s.distGet 0 = 0 ∧
  (∀ i, i < n → s.distGet i ≤ usizeMAX) ∧
  (∀ i, i < n → s.distGet i = usizeMAX ∨ HasPath n sc i (s.distGet i)) ∧
  HeapWF n s ∧
  (∀ u, u < n → Relaxed n sc s u ∨ State.mk (s.distGet u) u ∈ s.heap)

theorem new_distGet_zero {n : Nat} (h1 : 1 ≤ n) :
    (LinearDijkstra.new n).distGet 0 = 0 := by
  unfold LinearDijkstra.new LinearDijkstra.distGet
  rw [getD_set_self (by simpa using h1)]

theorem new_distGet_ne_zero {n i : Nat} (h0 : i ≠ 0) :
    (LinearDijkstra.new n).distGet i = if i < n then usizeMAX else 0 := by
  unfold LinearDijkstra.new LinearDijkstra.distGet
  rw [getD_set_ne (Ne.symm h0)]
  simp [List.getD_eq_getElem?_getD, List.getElem?_replicate]
  split <;> rfl

theorem usizeMAX_pos : 0 < usizeMAX := by norm_num [usizeMAX]

theorem inv_new {n : Nat} {sc : List Nat} (h1 : 1 ≤ n) :
    DriverInv n sc (LinearDijkstra.new n) := by
  refine ⟨by simp [LinearDijkstra.new], new_distGet_zero h1, ?_, ?_, ?_, ?_⟩
  · intro i _
    by_cases h0 : i = 0
    · subst h0; rw [new_distGet_zero h1]; exact Nat.zero_le _
    · rw [new_distGet_ne_zero h0]
      split <;> simp
  · intro i hi
    by_cases h0 : i = 0
    · subst h0
      right
      rw [new_distGet_zero h1]
      exact HasPath.refl
    · left
      rw [new_distGet_ne_zero h0, if_pos hi]
  · intro st hst
    rcases List.mem_cons.mp hst with h | h
    · subst h
      exact ⟨h1, by rw [new_distGet_zero h1], usizeMAX_pos⟩
    · simp at h
  · intro u hu
    by_cases h0 : u = 0
    · subst h0
      right
      rw [new_distGet_zero h1]
      exact List.mem_cons_self _ _
    · left
      intro v hv
      have hvn : v < n := hv.2.1
      have hbound : (LinearDijkstra.new n).distGet v ≤ usizeMAX := by
        by_cases hv0 : v = 0
        · subst hv0; rw [new_distGet_zero h1]; exact Nat.zero_le _
        · rw [new_distGet_ne_zero hv0, if_pos hvn]
      rw [new_distGet_ne_zero h0, if_pos hu]
      omega

theorem push_distGet_self_of_lt {s : LinearDijkstra} {st : State}
    (hlt : st.cost < s.distGet st.position) :
    (s.push st).distGet st.position = st.cost := by
  rw [push_of_lt hlt]
  simp only [LinearDijkstra.distGet]
  exact getD_set_self (pos_lt_of_push_lt hlt)

theorem push_heap_of_lt {s : LinearDijkstra} {st : State}
    (hlt : st.cost < s.distGet st.position) :
    (s.push st).heap = heapInsert st s.heap := by
  rw [push_of_lt hlt]

theorem push_distGet_zero {s : LinearDijkstra} {st : State}
    (h0 : s.distGet 0 = 0) : (s.push st).distGet 0 = 0 := by
  have h := push_distGet_le s st 0
  omega

/-- Pushing a candidate whose position is a real node and whose cost is a real
walk length preserves the invariant. -/
theorem inv_push {n : Nat} {sc : List Nat} {s : LinearDijkstra} {st : State}
    (hInv : DriverInv n sc s) (hpos : st.position < n)
    (hpath : HasPath n sc st.position st.cost) : DriverInv n sc (s.push st) := by
  obtain ⟨hlen, h0, hbd, hsound, hwf, hpend⟩ := hInv
  by_cases hlt : st.cost < s.distGet st.position
  · refine ⟨by rw [push_distances_length]; exact hlen, push_distGet_zero h0, ?_, ?_, ?_, ?_⟩
    · intro i hi
      exact Nat.le_trans (push_distGet_le s st i) (hbd i hi)
    · intro i hi
      by_cases hip : i = st.position
      · subst hip
        right
        rw [push_distGet_self_of_lt hlt]
        exact hpath
      · rw [push_distGet_ne s st hip]
        exact hsound i hi
    · intro a ha
      rw [push_heap_of_lt hlt] at ha
      rcases mem_heapInsert.mp ha with h | h
      · subst h
        refine ⟨hpos, by rw [push_distGet_self_of_lt hlt], ?_⟩
        exact Nat.lt_of_lt_of_le hlt (hbd _ hpos)
      · obtain ⟨hp, hd, hc⟩ := hwf a h
        exact ⟨hp, Nat.le_trans (push_distGet_le s st _) hd, hc⟩
    · intro u hu
      by_cases hup : u = st.position
      · subst hup
        right
        rw [push_distGet_self_of_lt hlt, push_heap_of_lt hlt]
        exact self_mem_heapInsert st s.heap
      · rcases hpend u hu with hrel | hmem
        · left
          intro v hv
          have h1 := Nat.le_trans (push_distGet_le s st v) (hrel v hv)
          rw [push_distGet_ne s st hup]
          exact h1
        · right
          rw [push_distGet_ne s st hup]
          exact push_mem_heap hmem
  · rw [push_of_not_lt hlt]
    exact ⟨hlen, h0, hbd, hsound, hwf, hpend⟩

/-! ## Driver step preservation -/

/-- Termination measure: queue size plus the total of the distance table.
Every driver iteration strictly decreases it. -/
def heapMeasure (s : LinearDijkstra) : Nat := s.heap.length + s.distances.sum

theorem push_measure_le (s : LinearDijkstra) (st : State) :
    heapMeasure (s.push st) ≤ heapMeasure s := by
  by_cases hlt : st.cost < s.distGet st.position
  · rw [push_of_lt hlt]
    have hs := sum_set_lt (pos_lt_of_push_lt hlt) hlt
    simp only [heapMeasure, length_heapInsert]
    omega
  · rw [push_of_not_lt hlt]

/-- The invariant with the pending obligation waived at one position `p`
(the position just returned by `pop`, whose shortcut edge the driver has not
pushed yet). -/
def DriverInvAt (n : Nat) (sc : List Nat) (p : Nat) (s : LinearDijkstra) : Prop :=
  s.distances.length = n ∧
  s.distGet 0 = 0 ∧
  (∀ i, i < n → s.distGet i ≤ usizeMAX) ∧
  (∀ i, i < n → s.distGet i = usizeMAX ∨ HasPath n sc i (s.distGet i)) ∧
  HeapWF n s ∧
  (∀ u, u < n → u = p ∨ Relaxed n sc s u ∨ State.mk (s.distGet u) u ∈ s.heap)

theorem invAt_push {n p : Nat} {sc : List Nat} {s : LinearDijkstra} {st : State}
    (hInv : DriverInvAt n sc p s) (hpos : st.position < n)
    (hpath : HasPath n sc st.position st.cost) : DriverInvAt n sc p (s.push st) := by
  obtain ⟨hlen, h0, hbd, hsound, hwf, hpend⟩ := hInv
  by_cases hlt : st.cost < s.distGet st.position
  · refine ⟨by rw [push_distances_length]; exact hlen, push_distGet_zero h0, ?_, ?_, ?_, ?_⟩
    · intro i hi
      exact Nat.le_trans (push_distGet_le s st i) (hbd i hi)
    · intro i hi
      by_cases hip : i = st.position
      · subst hip
        right
        rw [push_distGet_self_of_lt hlt]
        exact hpath
      · rw [push_distGet_ne s st hip]
        exact hsound i hi
    · intro a ha
      rw [push_heap_of_lt hlt] at ha
      rcases mem_heapInsert.mp ha with h | h
      · subst h
        refine ⟨hpos, by rw [push_distGet_self_of_lt hlt], ?_⟩
        exact Nat.lt_of_lt_of_le hlt (hbd _ hpos)
      · obtain ⟨hp, hd, hc⟩ := hwf a h
        exact ⟨hp, Nat.le_trans (push_distGet_le s st _) hd, hc⟩
    · intro u hu
      rcases hpend u hu with he | hrel | hmem
      · exact Or.inl he
      · by_cases hup : u = st.position
        · subst hup
          right; right
          rw [push_distGet_self_of_lt hlt, push_heap_of_lt hlt]
          exact self_mem_heapInsert st s.heap
        · right; left
          intro v hv
          have h1 := Nat.le_trans (push_distGet_le s st v) (hrel v hv)
          rw [push_distGet_ne s st hup]
          exact h1
      · by_cases hup : u = st.position
        · subst hup
          right; right
          rw [push_distGet_self_of_lt hlt, push_heap_of_lt hlt]
          exact self_mem_heapInsert st s.heap
        · right; right
          rw [push_distGet_ne s st hup]
          exact push_mem_heap hmem
  · rw [push_of_not_lt hlt]
    exact ⟨hlen, h0, hbd, hsound, hwf, hpend⟩

theorem getD_mem {l : List Nat} {i : Nat} (h : i < l.length) : l.getD i 0 ∈ l := by
  rw [List.getD_eq_getElem?_getD, List.getElem?_eq_getElem h]
  exact List.getElem_mem h

/-- After the driver finishes an iteration for position `p` at cost `c`
(= the table entry at `p`), with all three out-edges of `p` relaxed, the full
invariant holds again. -/
theorem invAt_assemble {n : Nat} {sc : List Nat} {s2 : LinearDijkstra} {c p : Nat}
    (hA : DriverInvAt n sc p s2)
    (hdp : s2.distGet p = c)
    (hf : p + 1 < n → s2.distGet (p + 1) ≤ c + 1)
    (hb : 0 < p → s2.distGet (p - 1) ≤ c + 1)
    (hs : s2.distGet (sc.getD p 0) ≤ c + 1) :
    DriverInv n sc s2 := by
  obtain ⟨hlen, h0, hbd, hsound, hwf, hpend⟩ := hA
  refine ⟨hlen, h0, hbd, hsound, hwf, ?_⟩
  intro u hu
  rcases hpend u hu with he | hrel | hmem
  · subst he
    left
    intro v hv
    rcases hv.2.2 with h | h | h
    · subst h
      rw [hdp]
      exact hf hv.2.1
    · have hu0 : 0 < u := by omega
      have hv' : v = u - 1 := by omega
      rw [hdp, hv']
      exact hb hu0
    · subst h
      rw [hdp]
      exact hs
  · exact Or.inl hrel
  · exact Or.inr hmem

/-- The driver's shortcut push, performed on a state where the line edges of
the returned position `p` are already relaxed, restores the invariant and
does not increase the measure. -/
theorem driver_push_assemble {n : Nat} {sc : List Nat} {s1 : LinearDijkstra} {c p : Nat}
    (hlen2 : sc.length = n) (hsc : ∀ x ∈ sc, x < n)
    (hpn : p < n) (hpath : HasPath n sc p c)
    (hA : DriverInvAt n sc p s1)
    (hdp : s1.distGet p = c)
    (hf : p + 1 < n → s1.distGet (p + 1) ≤ c + 1)
    (hb : 0 < p → s1.distGet (p - 1) ≤ c + 1) :
    DriverInv n sc (s1.push ⟨c + 1, sc.getD p 0⟩) ∧
      heapMeasure (s1.push ⟨c + 1, sc.getD p 0⟩) ≤ heapMeasure s1 := by
  have hscn : sc.getD p 0 < n := hsc _ (getD_mem (by rw [hlen2]; exact hpn))
  have hpathsc : HasPath n sc (sc.getD p 0) (c + 1) :=
    HasPath.step hpath ⟨hpn, hscn, Or.inr (Or.inr rfl)⟩
  have hA3 : DriverInvAt n sc p (s1.push ⟨c + 1, sc.getD p 0⟩) :=
    invAt_push hA hscn hpathsc
  have hd3p : (s1.push ⟨c + 1, sc.getD p 0⟩).distGet p = c := by
    by_cases hts : p = sc.getD p 0
    · have hno : ¬ (c + 1 < s1.distGet (sc.getD p 0)) := by
        rw [← hts, hdp]
        omega
      rw [push_of_not_lt hno]
      exact hdp
    · rw [push_distGet_ne s1 _ hts]
      exact hdp
  refine ⟨invAt_assemble hA3 hd3p ?_ ?_ ?_, push_measure_le s1 _⟩
  · intro h
    exact Nat.le_trans (push_distGet_le s1 _ _) (hf h)
  · intro h
    exact Nat.le_trans (push_distGet_le s1 _ _) (hb h)
  · exact push_relax s1 _

/-- A successful driver iteration preserves the invariant and strictly
decreases the measure. -/
theorem driverStep_some {n : Nat} {sc : List Nat} {s s2 : LinearDijkstra}
    (hlen2 : sc.length = n) (hsc : ∀ x ∈ sc, x < n)
    (hInv : DriverInv n sc s) (hstep : driverStep sc s = some s2) :
    DriverInv n sc s2 ∧ heapMeasure s2 < heapMeasure s := by
  obtain ⟨hlen, h0, hbd, hsound, hwf, hpend⟩ := hInv
  unfold driverStep at hstep
  rcases hp : s.pop with ⟨r, s1⟩
  rw [hp] at hstep
  cases r with
  | none => cases hstep
  | some st =>
    have hs2 : s2 = s1.push ⟨st.cost + 1, sc.getD st.position 0⟩ := by
      injection hstep with h
      exact h.symm
    obtain ⟨pre, rest, hsplit, hpre, hfresh, hs1⟩ := popGo_some_ex hp
    have hstmem : st ∈ s.heap := by
      rw [hsplit]
      exact List.mem_append_right _ (List.mem_cons_self _ _)
    obtain ⟨hpn, hdc, hcM⟩ := hwf st hstmem
    have hceq : s.distGet st.position = st.cost :=
      Nat.le_antisymm hdc (Nat.le_of_not_lt hfresh)
    have hpathc : HasPath n sc st.position st.cost := by
      rcases hsound st.position hpn with h | h
      · rw [hceq] at h
        omega
      · rw [hceq] at h
        exact h
    have hInvAt0 : DriverInvAt n sc st.position (⟨s.distances, rest⟩ : LinearDijkstra) := by
      refine ⟨hlen, h0, hbd, hsound, ?_, ?_⟩
      · intro a ha
        exact hwf a (by rw [hsplit]; exact List.mem_append_right _ (List.mem_cons_of_mem _ ha))
      · intro u hu
        rcases hpend u hu with hrel | hmem
        · exact Or.inr (Or.inl hrel)
        · rw [hsplit] at hmem
          rcases List.mem_append.mp hmem with hm | hm
          · exact absurd (show s.distGet u < s.distGet u from hpre _ hm) (lt_irrefl _)
          · rcases List.mem_cons.mp hm with hm1 | hm1
            · exact Or.inl (congrArg State.position hm1)
            · exact Or.inr (Or.inr hm1)
    have hM0 : heapMeasure (⟨s.distances, rest⟩ : LinearDijkstra) < heapMeasure s := by
      simp only [heapMeasure, hsplit, List.length_append, List.length_cons]
      omega
    unfold popPushNeighbors at hs1
    by_cases hfw : st.position + 1 < s.distances.length <;>
      by_cases hbw : st.position > 0
    · -- both line neighbours pushed
      simp only [if_pos hfw, if_pos hbw] at hs1
      subst hs1
      have hposf : st.position + 1 < n := by rw [← hlen]; exact hfw
      have hA1 : DriverInvAt n sc st.position ((⟨s.distances, rest⟩ : LinearDijkstra).push
          ⟨st.cost + 1, st.position + 1⟩) :=
        invAt_push hInvAt0 hposf (HasPath.step hpathc ⟨hpn, hposf, Or.inl rfl⟩)
      have hposb : st.position - 1 < n := by omega
      have hedgeb : IsEdge n sc st.position (st.position - 1) :=
        ⟨hpn, hposb, Or.inr (Or.inl (by omega))⟩
      have hA2 : DriverInvAt n sc st.position (((⟨s.distances, rest⟩ : LinearDijkstra).push
          ⟨st.cost + 1, st.position + 1⟩).push ⟨st.cost + 1, st.position - 1⟩) :=
        invAt_push hA1 hposb (HasPath.step hpathc hedgeb)
      have hd_p : (((⟨s.distances, rest⟩ : LinearDijkstra).push
          ⟨st.cost + 1, st.position + 1⟩).push ⟨st.cost + 1, st.position - 1⟩).distGet
          st.position = st.cost := by
        rw [push_distGet_ne _ _ (show st.position ≠ st.position - 1 by omega),
          push_distGet_ne _ _ (show st.position ≠ st.position + 1 by omega)]
        exact hceq
      have hd_f : st.position + 1 < n → (((⟨s.distances, rest⟩ : LinearDijkstra).push
          ⟨st.cost + 1, st.position + 1⟩).push ⟨st.cost + 1, st.position - 1⟩).distGet
          (st.position + 1) ≤ st.cost + 1 := by
        intro _
        exact Nat.le_trans (push_distGet_le _ _ _) (push_relax _ _)
      have hd_b : 0 < st.position → (((⟨s.distances, rest⟩ : LinearDijkstra).push
          ⟨st.cost + 1, st.position + 1⟩).push ⟨st.cost + 1, st.position - 1⟩).distGet
          (st.position - 1) ≤ st.cost + 1 := by
        intro _
        exact push_relax _ _
      obtain ⟨hfin, hm3⟩ := driver_push_assemble hlen2 hsc hpn hpathc hA2 hd_p hd_f hd_b
      rw [hs2]
      refine ⟨hfin, ?_⟩
      have hm1 := push_measure_le ((⟨s.distances, rest⟩ : LinearDijkstra).push
        ⟨st.cost + 1, st.position + 1⟩) ⟨st.cost + 1, st.position - 1⟩
      have hm2 := push_measure_le (⟨s.distances, rest⟩ : LinearDijkstra)
        ⟨st.cost + 1, st.position + 1⟩
      omega
    · -- only the forward neighbour pushed
      simp only [if_pos hfw, if_neg hbw] at hs1
      subst hs1
      have hposf : st.position + 1 < n := by rw [← hlen]; exact hfw
      have hA2 : DriverInvAt n sc st.position ((⟨s.distances, rest⟩ : LinearDijkstra).push
          ⟨st.cost + 1, st.position + 1⟩) :=
        invAt_push hInvAt0 hposf (HasPath.step hpathc ⟨hpn, hposf, Or.inl rfl⟩)
      have hd_p : ((⟨s.distances, rest⟩ : LinearDijkstra).push
          ⟨st.cost + 1, st.position + 1⟩).distGet st.position = st.cost := by
        rw [push_distGet_ne _ _ (show st.position ≠ st.position + 1 by omega)]
        exact hceq
      have hd_f : st.position + 1 < n → ((⟨s.distances, rest⟩ : LinearDijkstra).push
          ⟨st.cost + 1, st.position + 1⟩).distGet (st.position + 1) ≤ st.cost + 1 := by
        intro _
        exact push_relax _ _
      have hd_b : 0 < st.position → ((⟨s.distances, rest⟩ : LinearDijkstra).push
          ⟨st.cost + 1, st.position + 1⟩).distGet (st.position - 1) ≤ st.cost + 1 :=
        fun h => absurd h hbw
      obtain ⟨hfin, hm3⟩ := driver_push_assemble hlen2 hsc hpn hpathc hA2 hd_p hd_f hd_b
      rw [hs2]
      refine ⟨hfin, ?_⟩
      have hm2 := push_measure_le (⟨s.distances, rest⟩ : LinearDijkstra)
        ⟨st.cost + 1, st.position + 1⟩
      omega
    · -- only the backward neighbour pushed
      simp only [if_neg hfw, if_pos hbw] at hs1
      subst hs1
      have hposb : st.position - 1 < n := by omega
      have hedgeb : IsEdge n sc st.position (st.position - 1) :=
        ⟨hpn, hposb, Or.inr (Or.inl (by omega))⟩
      have hA2 : DriverInvAt n sc st.position ((⟨s.distances, rest⟩ : LinearDijkstra).push
          ⟨st.cost + 1, st.position - 1⟩) :=
        invAt_push hInvAt0 hposb (HasPath.step hpathc hedgeb)
      have hd_p : ((⟨s.distances, rest⟩ : LinearDijkstra).push
          ⟨st.cost + 1, st.position - 1⟩).distGet st.position = st.cost := by
        rw [push_distGet_ne _ _ (show st.position ≠ st.position - 1 by omega)]
        exact hceq
      have hd_f : st.position + 1 < n → ((⟨s.distances, rest⟩ : LinearDijkstra).push
          ⟨st.cost + 1, st.position - 1⟩).distGet (st.position + 1) ≤ st.cost + 1 := by
        intro h
        exact absurd (show st.position + 1 < s.distances.length by rw [hlen]; exact h) hfw
      have hd_b : 0 < st.position → ((⟨s.distances, rest⟩ : LinearDijkstra).push
          ⟨st.cost + 1, st.position - 1⟩).distGet (st.position - 1) ≤ st.cost + 1 := by
        intro _
        exact push_relax _ _
      obtain ⟨hfin, hm3⟩ := driver_push_assemble hlen2 hsc hpn hpathc hA2 hd_p hd_f hd_b
      rw [hs2]
      refine ⟨hfin, ?_⟩
      have hm2 := push_measure_le (⟨s.distances, rest⟩ : LinearDijkstra)
        ⟨st.cost + 1, st.position - 1⟩
      omega
    · -- no line neighbour pushed (n = 1)
      simp only [if_neg hfw, if_neg hbw] at hs1
      subst hs1
      have hd_p : (⟨s.distances, rest⟩ : LinearDijkstra).distGet st.position = st.cost := hceq
      have hd_f : st.position + 1 < n →
          (⟨s.distances, rest⟩ : LinearDijkstra).distGet (st.position + 1) ≤ st.cost + 1 := by
        intro h
        exact absurd (show st.position + 1 < s.distances.length by rw [hlen]; exact h) hfw
      have hd_b : 0 < st.position →
          (⟨s.distances, rest⟩ : LinearDijkstra).distGet (st.position - 1) ≤ st.cost + 1 :=
        fun h => absurd h hbw
      obtain ⟨hfin, hm3⟩ := driver_push_assemble hlen2 hsc hpn hpathc hInvAt0 hd_p hd_f hd_b
      rw [hs2]
      exact ⟨hfin, by omega⟩

/-! ## Running the driver loop to exhaustion -/

theorem runLoop_drains {n : Nat} {sc : List Nat} (hlen2 : sc.length = n)
    (hsc : ∀ x ∈ sc, x < n) :
    ∀ (fuel : Nat) (s : LinearDijkstra), DriverInv n sc s → heapMeasure s < fuel →
      DriverInv n sc (runLoop sc fuel s) ∧ driverStep sc (runLoop sc fuel s) = none
  | 0, s, _, hm => by omega
  | fuel + 1, s, hInv, hm => by
      rcases hd : driverStep sc s with _ | s1
      · have honce : runLoop sc (fuel + 1) s = s := by simp [runLoop, hd]
        rw [honce]
        exact ⟨hInv, hd⟩
      · obtain ⟨hInv1, hm1⟩ := driverStep_some hlen2 hsc hInv hd
        have ih := runLoop_drains hlen2 hsc fuel s1 hInv1 (by omega)
        simpa [runLoop, hd] using ih

theorem measure_new_lt {n : Nat} (h1 : 1 ≤ n) :
    heapMeasure (LinearDijkstra.new n) < solveFuel n := by
  have hb : ∀ x ∈ (List.replicate n usizeMAX).set 0 0, x ≤ usizeMAX := by
    intro x hx
    rcases List.mem_or_eq_of_mem_set hx with h | h
    · exact Nat.le_of_eq (List.eq_of_mem_replicate h)
    · omega
  have hs := sum_le_of_forall_le hb
  simp only [List.length_set, List.length_replicate] at hs
  simp only [heapMeasure, solveFuel, LinearDijkstra.new, List.length_cons, List.length_nil]
  omega

theorem solve_inv {n : Nat} {sc : List Nat} (h1 : 1 ≤ n) (hlen2 : sc.length = n)
    (hsc : ∀ x ∈ sc, x < n) :
    DriverInv n sc (solve n sc) ∧ driverStep sc (solve n sc) = none :=
  runLoop_drains hlen2 hsc (solveFuel n) (LinearDijkstra.new n) (inv_new h1)
    (measure_new_lt h1)

theorem drained_stale {sc : List Nat} {s : LinearDijkstra}
    (hd : driverStep sc s = none) :
    ∀ st ∈ s.heap, s.distGet st.position < st.cost := by
  unfold driverStep at hd
  rcases hp : s.pop with ⟨r, s1⟩
  rw [hp] at hd
  cases r with
  | some st => cases hd
  | none =>
      obtain ⟨_, hstale⟩ := popGo_none_ex hp
      exact hstale

theorem pop_none_of_driverStep_none {sc : List Nat} {s : LinearDijkstra}
    (h : driverStep sc s = none) : (s.pop).1 = none := by
  unfold driverStep at h
  rcases hp : s.pop with ⟨r, s1⟩
  rw [hp] at h
  cases r with
  | some st => cases h
  | none => rfl

/-- At the end of the driver loop every node has all its out-edges relaxed. -/
theorem final_relaxed {n : Nat} {sc : List Nat} (h1 : 1 ≤ n) (hlen2 : sc.length = n)
    (hsc : ∀ x ∈ sc, x < n) :
    ∀ u, u < n → Relaxed n sc (solve n sc) u := by
  obtain ⟨hInv, hdrained⟩ := solve_inv h1 hlen2 hsc
  obtain ⟨_, _, _, _, _, hpend⟩ := hInv
  intro u hu
  rcases hpend u hu with hrel | hmem
  · exact hrel
  · have hstale := drained_stale hdrained _ hmem
    exact absurd
      (show (solve n sc).distGet u < (solve n sc).distGet u from hstale)
      (lt_irrefl _)

/-- Completeness at the final state: the table is a lower bound of every walk
length (relaxation fixpoint plus `distance[0] = 0`). -/
theorem final_le_path {n : Nat} {sc : List Nat} (h1 : 1 ≤ n) (hlen2 : sc.length = n)
    (hsc : ∀ x ∈ sc, x < n) :
    ∀ {v k : Nat}, HasPath n sc v k → (solve n sc).distGet v ≤ k := by
  intro v k hpath
  induction hpath with
  | refl =>
      have h0 := ((solve_inv h1 hlen2 hsc).1).2.1
      omega
  | step hp he ih =>
      have hrel := final_relaxed h1 hlen2 hsc _ he.1 _ he
      omega

theorem hasPath_line {n : Nat} {sc : List Nat} : ∀ i, i < n → HasPath n sc i i
  | 0, _ => HasPath.refl
  | i + 1, h =>
      HasPath.step (hasPath_line i (by omega)) ⟨by omega, h, Or.inl rfl⟩

/-! ## Claim theorems: final-state properties -/

/-- Claim C1: for every valid input (`n ≥ 1`, `n` representable as a `usize`,
`shortcuts` of length `n` with every entry in `[0, n)`), after the driver
loop ends every entry `distance[i]` equals the true shortest-path cost from
node `0` to node `i` in the line-plus-shortcuts graph: it is the length of an
actual walk from `0` to `i`, and it is a lower bound of every walk length. -/
theorem C1_final_distances_are_shortest {n : Nat} {sc : List Nat}
    (h1 : 1 ≤ n) (hM : n ≤ usizeMAX) (hlen2 : sc.length = n)
    (hsc : ∀ x ∈ sc, x < n) :
    ∀ i, i < n → HasPath n sc i ((solve n sc).distGet i) ∧
      ∀ k, HasPath n sc i k → (solve n sc).distGet i ≤ k := by
  intro i hi
  obtain ⟨hInv, _⟩ := solve_inv h1 hlen2 hsc
  obtain ⟨hlen, h0, hbd, hsound, hwf, hpend⟩ := hInv
  have hle : (solve n sc).distGet i ≤ i :=
    final_le_path h1 hlen2 hsc (hasPath_line i hi)
  rcases hsound i hi with h | h
  · omega
  · exact ⟨h, fun k hk => final_le_path h1 hlen2 hsc hk⟩

/-- Witness for C1 at `n = 3`, `shortcuts = [2, 2, 0]` (the spec's concrete
scenario), node `i = 2`. -/
theorem C1_witness :
    (1 ≤ 3 ∧ 3 ≤ usizeMAX ∧ ([2, 2, 0] : List Nat).length = 3 ∧
      ∀ x ∈ ([2, 2, 0] : List Nat), x < 3) ∧
    (HasPath 3 [2, 2, 0] 2 ((solve 3 [2, 2, 0]).distGet 2) ∧
      ∀ k, HasPath 3 [2, 2, 0] 2 k → (solve 3 [2, 2, 0]).distGet 2 ≤ k) :=
  ⟨⟨by decide, by decide, by decide, by decide⟩,
    C1_final_distances_are_shortest (by decide) (by decide) (by decide) (by decide)
      2 (by decide)⟩

/-- Claim C6: on every valid input the driver loop terminates — after at most
`solveFuel n` iterations `pop` returns nothing. -/
theorem C6_driver_terminates {n : Nat} {sc : List Nat}
    (h1 : 1 ≤ n) (hlen2 : sc.length = n) (hsc : ∀ x ∈ sc, x < n) :
    ((runLoop sc (solveFuel n) (LinearDijkstra.new n)).pop).1 = none :=
  pop_none_of_driverStep_none (solve_inv h1 hlen2 hsc).2

/-- Witness for C6 at `n = 2`, `shortcuts = [1, 0]`. -/
theorem C6_witness :
    (1 ≤ 2 ∧ ([1, 0] : List Nat).length = 2 ∧ ∀ x ∈ ([1, 0] : List Nat), x < 2) ∧
    ((runLoop [1, 0] (solveFuel 2) (LinearDijkstra.new 2)).pop).1 = none :=
  ⟨⟨by decide, by decide, by decide⟩,
    C6_driver_terminates (by decide) (by decide) (by decide)⟩

/-- Claim C7: after the driver loop completes, adjacent table entries differ
by at most one. -/
theorem C7_adjacent_entries_close {n : Nat} {sc : List Nat}
    (h1 : 1 ≤ n) (hlen2 : sc.length = n) (hsc : ∀ x ∈ sc, x < n) :
    ∀ i, i + 1 < n →
      |((solve n sc).distGet i : Int) - ((solve n sc).distGet (i + 1) : Int)| ≤ 1 := by
  intro i hi
  have h1i : i < n := by omega
  have hfwd := final_relaxed h1 hlen2 hsc i h1i (i + 1) ⟨h1i, hi, Or.inl rfl⟩
  have hbwd := final_relaxed h1 hlen2 hsc (i + 1) hi i ⟨hi, h1i, Or.inr (Or.inl rfl)⟩
  rw [abs_le]
  omega

/-- Witness for C7 at `n = 3`, `shortcuts = [2, 2, 0]`, `i = 1`. -/
theorem C7_witness :
    (1 ≤ 3 ∧ ([2, 2, 0] : List Nat).length = 3 ∧ ∀ x ∈ ([2, 2, 0] : List Nat), x < 3) ∧
    |((solve 3 [2, 2, 0]).distGet 1 : Int) - ((solve 3 [2, 2, 0]).distGet 2 : Int)| ≤ 1 :=
  ⟨⟨by decide, by decide, by decide⟩,
    C7_adjacent_entries_close (by decide) (by decide) (by decide) 1 (by decide)⟩

/-- Claim C8: after the driver loop completes, the shortcut relaxation holds
at every node. -/
theorem C8_shortcut_relaxed {n : Nat} {sc : List Nat}
    (h1 : 1 ≤ n) (hlen2 : sc.length = n) (hsc : ∀ x ∈ sc, x < n) :
    ∀ i, i < n → (solve n sc).distGet (sc.getD i 0) ≤ (solve n sc).distGet i + 1 := by
  intro i hi
  have hscn : sc.getD i 0 < n := hsc _ (getD_mem (by rw [hlen2]; exact hi))
  exact final_relaxed h1 hlen2 hsc i hi _ ⟨hi, hscn, Or.inr (Or.inr rfl)⟩

/-- Witness for C8 at `n = 3`, `shortcuts = [2, 2, 0]`, `i = 0`. -/
theorem C8_witness :
    (1 ≤ 3 ∧ ([2, 2, 0] : List Nat).length = 3 ∧ ∀ x ∈ ([2, 2, 0] : List Nat), x < 3) ∧
    (solve 3 [2, 2, 0]).distGet (([2, 2, 0] : List Nat).getD 0 0) ≤
      (solve 3 [2, 2, 0]).distGet 0 + 1 :=
  ⟨⟨by decide, by decide, by decide⟩,
    C8_shortcut_relaxed (by decide) (by decide) (by decide) 0 (by decide)⟩

/-- Claim C9: constructing the solver with `n = 0` fails (the write
`distances[0] = 0` panics), and construction fails exactly for `n = 0`; it
never silently produces an empty or malformed table. -/
theorem C9_new_zero_fails :
    LinearDijkstra.new? 0 = none ∧ ∀ n : Nat, LinearDijkstra.new? n = none ↔ n = 0 := by
  refine ⟨rfl, fun n => ?_⟩
  unfold LinearDijkstra.new?
  split
  · case isTrue h =>
      constructor
      · intro hc
        cases hc
      · intro h0
        exact absurd h (by omega)
  · case isFalse h =>
      constructor
      · intro _
        omega
      · intro _
        rfl

/-! ## Claim theorems: the ordering policy and the push/pop contracts -/

/-- Claim C2 counterexample: two equal-cost candidates for positions 0 and 1
are both in the queue (the state is `new 2` followed by `push {0, 1}`, and
both entries are fresh for the table `[0, 0]`), yet `pop` extracts the
candidate with the LARGER position first — the claimed ascending-position
tie-break is false. -/
theorem C2_counterexample :
    ((⟨0, 0⟩ : State) ∈ ((LinearDijkstra.new 2).push ⟨0, 1⟩).heap ∧
      (⟨0, 1⟩ : State) ∈ ((LinearDijkstra.new 2).push ⟨0, 1⟩).heap) ∧
    (((LinearDijkstra.new 2).push ⟨0, 1⟩).pop).1 = some ⟨0, 1⟩ ∧
    ¬ ((((LinearDijkstra.new 2).push ⟨0, 1⟩).pop).1 = some ⟨0, 0⟩) := by
  decide

/-- Claim C2 amended: the heap order realised by `impl Ord for State` (under
which `BinaryHeap::pop` returns the greatest element, i.e. the next one
extracted) is: `a` is extracted before `b` iff `a` has strictly smaller cost,
or equal cost and strictly LARGER position — cost ascending with ties broken
by position descending, not ascending. -/
theorem C2_amended_heap_order (a b : State) :
    stateCmp a b = Ordering.gt ↔
      (a.cost < b.cost ∨ (a.cost = b.cost ∧ b.position < a.position)) := by
  unfold stateCmp
  rcases Nat.lt_trichotomy a.cost b.cost with h | h | h
  · rw [Nat.compare_eq_gt.mpr h]
    show Ordering.gt = Ordering.gt ↔ _
    exact ⟨fun _ => Or.inl h, fun _ => rfl⟩
  · rw [Nat.compare_eq_eq.mpr h.symm]
    show compare a.position b.position = Ordering.gt ↔ _
    rw [Nat.compare_eq_gt]
    constructor
    · intro hp
      exact Or.inr ⟨h, hp⟩
    · rintro (hc | ⟨_, hp⟩)
      · omega
      · exact hp
  · rw [Nat.compare_eq_lt.mpr h]
    show Ordering.lt = Ordering.gt ↔ _
    constructor
    · intro hc
      cases hc
    · rintro (hc | ⟨hc, _⟩) <;> omega

theorem popPushNeighbors_distGet_pos {d : List Nat} {st : State} {rest : List State}
    (hceq : d.getD st.position 0 = st.cost) :
    (popPushNeighbors d st rest).distGet st.position = st.cost := by
  unfold popPushNeighbors
  by_cases hfw : st.position + 1 < d.length
  · by_cases hbw : st.position > 0
    · simp only [if_pos hfw, if_pos hbw]
      rw [push_distGet_ne _ _ (show st.position ≠ st.position - 1 by omega),
        push_distGet_ne _ _ (show st.position ≠ st.position + 1 by omega)]
      exact hceq
    · simp only [if_pos hfw, if_neg hbw]
      rw [push_distGet_ne _ _ (show st.position ≠ st.position + 1 by omega)]
      exact hceq
  · by_cases hbw : st.position > 0
    · simp only [if_neg hfw, if_pos hbw]
      rw [push_distGet_ne _ _ (show st.position ≠ st.position - 1 by omega)]
      exact hceq
    · simp only [if_neg hfw, if_neg hbw]
      exact hceq

/-- Claim C3: on a state with a well-formed queue (queued costs at least the
table entry — an invariant of every state built through the API), a candidate
returned by `pop` is non-stale: its cost equals the table entry at its
position at the moment of return; every candidate dropped before it was
stale; and the returned state is exactly the post-extraction state with
`Candidate{cost+1, position+1}` pushed when `position+1 < n` and
`Candidate{cost+1, position-1}` pushed when `position > 0`. -/
theorem C3_pop_returns_fresh {s : LinearDijkstra} {st : State} {s1 : LinearDijkstra}
    (hwf : ∀ a ∈ s.heap, s.distGet a.position ≤ a.cost)
    (hpop : s.pop = (some st, s1)) :
    s1.distGet st.position = st.cost ∧
    ∃ pre rest, s.heap = pre ++ st :: rest ∧
      (∀ x ∈ pre, s.distGet x.position < x.cost) ∧
      s1 = popPushNeighbors s.distances st rest := by
  obtain ⟨pre, rest, hsplit, hpre, hfresh, hs1⟩ := popGo_some_ex hpop
  have hmem : st ∈ s.heap := by
    rw [hsplit]
    exact List.mem_append_right _ (List.mem_cons_self _ _)
  have hceq : s.distGet st.position = st.cost :=
    Nat.le_antisymm (hwf st hmem) (Nat.le_of_not_lt hfresh)
  refine ⟨?_, pre, rest, hsplit, hpre, hs1⟩
  rw [hs1]
  exact popPushNeighbors_distGet_pos hceq

/-- Witness for C3 at the state `new 2`, whose pop returns `{0, 0}` and
pushes `{1, 1}`. -/
theorem C3_witness :
    ((∀ a ∈ (LinearDijkstra.new 2).heap,
        (LinearDijkstra.new 2).distGet a.position ≤ a.cost) ∧
      (LinearDijkstra.new 2).pop =
        (some ⟨0, 0⟩, (⟨[0, 1], [⟨1, 1⟩]⟩ : LinearDijkstra))) ∧
    ((⟨[0, 1], [⟨1, 1⟩]⟩ : LinearDijkstra).distGet 0 = 0 ∧
      ∃ pre rest, (LinearDijkstra.new 2).heap = pre ++ (⟨0, 0⟩ : State) :: rest ∧
        (∀ x ∈ pre, (LinearDijkstra.new 2).distGet x.position < x.cost) ∧
        (⟨[0, 1], [⟨1, 1⟩]⟩ : LinearDijkstra) =
          popPushNeighbors (LinearDijkstra.new 2).distances ⟨0, 0⟩ rest) :=
  ⟨⟨by decide, by decide⟩,
    @C3_pop_returns_fresh (LinearDijkstra.new 2) ⟨0, 0⟩ ⟨[0, 1], [⟨1, 1⟩]⟩
      (by decide) (by decide)⟩

/-- Claim C4: for a candidate with in-range position, `push` updates the
table entry and inserts the candidate into the queue when the cost strictly
improves the entry, and otherwise changes nothing at all. -/
theorem C4_push_cases {s : LinearDijkstra} {st : State}
    (hpos : st.position < s.distances.length) :
    (st.cost < s.distGet st.position →
      s.push st = ⟨s.distances.set st.position st.cost, heapInsert st s.heap⟩) ∧
    (¬ st.cost < s.distGet st.position → s.push st = s) :=
  ⟨push_of_lt, push_of_not_lt⟩

/-- Witness for C4 at the state `new 2` and candidate `{1, 1}`. -/
theorem C4_witness :
    ((⟨1, 1⟩ : State).position < (LinearDijkstra.new 2).distances.length) ∧
    (((⟨1, 1⟩ : State).cost < (LinearDijkstra.new 2).distGet (⟨1, 1⟩ : State).position →
      (LinearDijkstra.new 2).push ⟨1, 1⟩ =
        ⟨(LinearDijkstra.new 2).distances.set 1 1,
          heapInsert ⟨1, 1⟩ (LinearDijkstra.new 2).heap⟩) ∧
    (¬ (⟨1, 1⟩ : State).cost < (LinearDijkstra.new 2).distGet (⟨1, 1⟩ : State).position →
      (LinearDijkstra.new 2).push ⟨1, 1⟩ = LinearDijkstra.new 2)) :=
  ⟨by decide, C4_push_cases (by decide)⟩

/-! ## Claim theorems: invariants along arbitrary call sequences -/

theorem popPushNeighbors_distGet_le (d : List Nat) (st : State) (rest : List State)
    (i : Nat) : (popPushNeighbors d st rest).distGet i ≤ d.getD i 0 := by
  unfold popPushNeighbors
  by_cases hfw : st.position + 1 < d.length
  · by_cases hbw : st.position > 0
    · simp only [if_pos hfw, if_pos hbw]
      exact Nat.le_trans (push_distGet_le _ _ _) (push_distGet_le _ _ _)
    · simp only [if_pos hfw, if_neg hbw]
      exact push_distGet_le _ _ _
  · by_cases hbw : st.position > 0
    · simp only [if_neg hfw, if_pos hbw]
      exact push_distGet_le _ _ _
    · simp only [if_neg hfw, if_neg hbw]
      exact Nat.le_refl _

theorem popGo_distGet_le (d : List Nat) : ∀ (h : List State) (i : Nat),
    ((popGo d h).2).distGet i ≤ d.getD i 0
  | [], _ => Nat.le_refl _
  | x :: xs, i => by
      simp only [popGo]
      split
      · exact popGo_distGet_le d xs i
      · exact popPushNeighbors_distGet_le d x xs i

theorem applyOp_distGet_le (s : LinearDijkstra) (op : SolverOp) (i : Nat) :
    (applyOp s op).distGet i ≤ s.distGet i := by
  cases op with
  | push st => exact push_distGet_le s st i
  | pop => exact popGo_distGet_le s.distances s.heap i

theorem execOps_append_one (s : LinearDijkstra) :
    ∀ (ops : List SolverOp) (op : SolverOp),
      execOps s (ops ++ [op]) = applyOp (execOps s ops) op
  | [], _ => rfl
  | o :: ops, op => execOps_append_one (applyOp s o) ops op

theorem execOps_distGet_zero {s : LinearDijkstra} (h0 : s.distGet 0 = 0) :
    ∀ ops : List SolverOp, (execOps s ops).distGet 0 = 0
  | [] => h0
  | op :: ops =>
      execOps_distGet_zero
        (s := applyOp s op)
        (by have := applyOp_distGet_le s op 0; omega) ops

/-- Claim C5: starting from construction with `n ≥ 1`, along any sequence of
API calls whose pushes use in-range positions, `distance[0] = 0` holds after
every prefix, and every single further call leaves each entry unchanged or
smaller. -/
theorem C5_zero_fixed_and_monotone {n : Nat} (h1 : 1 ≤ n) :
    ∀ ops : List SolverOp, (∀ st, SolverOp.push st ∈ ops → st.position < n) →
      (execOps (LinearDijkstra.new n) ops).distGet 0 = 0 ∧
      ∀ (op : SolverOp) (i : Nat),
        (execOps (LinearDijkstra.new n) (ops ++ [op])).distGet i ≤
          (execOps (LinearDijkstra.new n) ops).distGet i := by
  intro ops _
  refine ⟨execOps_distGet_zero (new_distGet_zero h1) ops, ?_⟩
  intro op i
  rw [execOps_append_one]
  exact applyOp_distGet_le _ op i

/-- Witness for C5 at `n = 2`, after a pop and a push. -/
theorem C5_witness :
    (1 ≤ 2 ∧ ∀ st : State,
      SolverOp.push st ∈ [SolverOp.pop, SolverOp.push ⟨0, 1⟩] → st.position < 2) ∧
    ((execOps (LinearDijkstra.new 2) [SolverOp.pop, SolverOp.push ⟨0, 1⟩]).distGet 0 = 0 ∧
      ∀ (op : SolverOp) (i : Nat),
        (execOps (LinearDijkstra.new 2)
            ([SolverOp.pop, SolverOp.push ⟨0, 1⟩] ++ [op])).distGet i ≤
          (execOps (LinearDijkstra.new 2) [SolverOp.pop, SolverOp.push ⟨0, 1⟩]).distGet i) :=
  ⟨⟨by decide, by intro st hst; simp at hst; subst hst; decide⟩,
    C5_zero_fixed_and_monotone (by decide) _
      (by intro st hst; simp at hst; subst hst; decide)⟩

/-! ## Claim theorems: positions returned by pop -/

/-- Claim C10 counterexample: from `new 2`, with only in-range pushes between
pops, the run pop, pop, push {0, 1}, pop returns the candidates
(0,0), (1,1), (0,1) — position 1 is returned by pop twice. -/
theorem C10_counterexample :
    (∀ st : State, SolverOp.push st ∈
        [SolverOp.pop, SolverOp.pop, SolverOp.push ⟨0, 1⟩, SolverOp.pop] →
      st.position < 2) ∧
    runTrace (LinearDijkstra.new 2)
        [SolverOp.pop, SolverOp.pop, SolverOp.push ⟨0, 1⟩, SolverOp.pop] =
      [⟨0, 0⟩, ⟨1, 1⟩, ⟨0, 1⟩] ∧
    ¬ List.Pairwise (fun a b : State => a.position ≠ b.position)
        (runTrace (LinearDijkstra.new 2)
          [SolverOp.pop, SolverOp.pop, SolverOp.push ⟨0, 1⟩, SolverOp.pop]) := by
  refine ⟨?_, by decide, by decide⟩
  intro st hst
  simp at hst
  subst hst
  decide

theorem state_eq_of_fields {a b : State} (hc : a.cost = b.cost)
    (hp : a.position = b.position) : a = b := by
  cases a
  cases b
  simp_all

theorem heapInsert_nodup {st : State} : ∀ {h : List State},
    h.Nodup → st ∉ h → (heapInsert st h).Nodup
  | [], _, _ => List.nodup_singleton st
  | x :: xs, hn, hm => by
      simp only [heapInsert]
      split
      · rcases List.nodup_cons.mp hn with ⟨hx, hxs⟩
        refine List.nodup_cons.mpr
          ⟨?_, heapInsert_nodup hxs (fun hc => hm (List.mem_cons_of_mem _ hc))⟩
        intro hc
        rcases mem_heapInsert.mp hc with h1 | h1
        · subst h1
          exact hm (List.mem_cons_self _ _)
        · exact hx h1
      · exact List.nodup_cons.mpr ⟨hm, hn⟩

theorem push_traceInv {s : LinearDijkstra} {R : List State} {st : State}
    (hT : TraceInv s R) : TraceInv (s.push st) R := by
  obtain ⟨hwf, hnd, hR⟩ := hT
  by_cases hlt : st.cost < s.distGet st.position
  · have hstout : st ∉ s.heap := fun hc => absurd (hwf st hc) (by omega)
    refine ⟨?_, ?_, ?_⟩
    · intro a ha
      rw [push_heap_of_lt hlt] at ha
      rcases mem_heapInsert.mp ha with h | h
      · rw [h]
        exact push_relax s st
      · exact Nat.le_trans (push_distGet_le s st _) (hwf a h)
    · rw [push_heap_of_lt hlt]
      exact heapInsert_nodup hnd hstout
    · intro a ha
      obtain ⟨hout, hle⟩ := hR a ha
      refine ⟨?_, Nat.le_trans (push_distGet_le s st _) hle⟩
      rw [push_heap_of_lt hlt]
      intro hc
      rcases mem_heapInsert.mp hc with h | h
      · subst h
        omega
      · exact hout h
  · rw [push_of_not_lt hlt]
    exact ⟨hwf, hnd, hR⟩

theorem popPush_traceInv {d : List Nat} {st : State} {rest R : List State}
    (h : TraceInv ⟨d, rest⟩ R) : TraceInv (popPushNeighbors d st rest) R := by
  unfold popPushNeighbors
  by_cases hfw : st.position + 1 < d.length
  · by_cases hbw : st.position > 0
    · simp only [if_pos hfw, if_pos hbw]
      exact push_traceInv (push_traceInv h)
    · simp only [if_pos hfw, if_neg hbw]
      exact push_traceInv h
  · by_cases hbw : st.position > 0
    · simp only [if_neg hfw, if_pos hbw]
      exact push_traceInv h
    · simp only [if_neg hfw, if_neg hbw]
      exact h

theorem runTrace_strict (ops : List SolverOp) :
    ∀ (s : LinearDijkstra) (R : List State), TraceInv s R →
      (∀ a ∈ R, ∀ b ∈ runTrace s ops, a.position = b.position → b.cost < a.cost) ∧
      List.Pairwise (fun a b : State => a.position = b.position → b.cost < a.cost)
        (runTrace s ops) := by
  induction ops with
  | nil =>
      intro s R _
      exact ⟨by simp [runTrace], by simp [runTrace]⟩
  | cons op ops ih =>
      intro s R hT
      cases op with
      | push st =>
          simp only [runTrace]
          exact ih (s.push st) R (push_traceInv hT)
      | pop =>
          simp only [runTrace]
          rcases hp : s.pop with ⟨r, s1⟩
          cases r with
          | none =>
              obtain ⟨hs1, _⟩ := popGo_none_ex hp
              subst hs1
              refine ih _ R ⟨?_, List.nodup_nil, ?_⟩
              · intro a ha
                exact absurd ha (List.not_mem_nil a)
              · intro a ha
                exact ⟨List.not_mem_nil a, (hT.2.2 a ha).2⟩
          | some st =>
              obtain ⟨pre, rest, hsplit, hpre, hfresh, hs1⟩ := popGo_some_ex hp
              obtain ⟨hwf, hnd, hR⟩ := hT
              have hmem : st ∈ s.heap := by
                rw [hsplit]
                exact List.mem_append_right _ (List.mem_cons_self _ _)
              have hceq : s.distGet st.position = st.cost :=
                Nat.le_antisymm (hwf st hmem) (Nat.le_of_not_lt hfresh)
              have hnd2 : (st :: rest).Nodup := by
                rw [hsplit] at hnd
                exact hnd.of_append_right
              have hstrest : st ∉ rest := (List.nodup_cons.mp hnd2).1
              have hT0 : TraceInv ⟨s.distances, rest⟩ (st :: R) := by
                refine ⟨?_, (List.nodup_cons.mp hnd2).2, ?_⟩
                · intro a ha
                  exact hwf a (by
                    rw [hsplit]
                    exact List.mem_append_right _ (List.mem_cons_of_mem _ ha))
                · intro a ha
                  rcases List.mem_cons.mp ha with h | h
                  · subst h
                    exact ⟨hstrest, Nat.le_of_eq hceq⟩
                  · obtain ⟨hout, hle⟩ := hR a h
                    refine ⟨?_, hle⟩
                    intro hc
                    exact hout (by
                      rw [hsplit]
                      exact List.mem_append_right _ (List.mem_cons_of_mem _ hc))
              have hT1 : TraceInv s1 (st :: R) := by
                rw [hs1]
                exact popPush_traceInv hT0
              obtain ⟨hRf, hPW⟩ := ih s1 (st :: R) hT1
              constructor
              · intro a ha b hb
                rcases List.mem_cons.mp hb with hb1 | hb1
                · subst hb1
                  intro hpos
                  obtain ⟨hout, hle⟩ := hR a ha
                  have hne : a ≠ b := fun hc => hout (hc ▸ hmem)
                  rw [hpos, hceq] at hle
                  rcases Nat.lt_or_ge b.cost a.cost with h2 | h2
                  · exact h2
                  · exact absurd (state_eq_of_fields (by omega) hpos) hne
                · exact hRf a (List.mem_cons_of_mem _ ha) b hb1
              · exact List.Pairwise.cons (fun b hb => hRf st (List.mem_cons_self _ _) b hb) hPW

/-- Claim C10 amended: along any run from construction (`n ≥ 1`) whose pushes
use in-range positions, successive candidates returned by `pop` at the same
position have strictly decreasing costs (so each (cost, position) pair is
returned at most once; a position can repeat only when the caller pushes a
strictly cheaper candidate for it, as the counterexample does). -/
theorem C10_amended_strictly_decreasing {n : Nat} (h1 : 1 ≤ n) :
    ∀ ops : List SolverOp, (∀ st, SolverOp.push st ∈ ops → st.position < n) →
      List.Pairwise (fun a b : State => a.position = b.position → b.cost < a.cost)
        (runTrace (LinearDijkstra.new n) ops) := by
  intro ops _
  have hT : TraceInv (LinearDijkstra.new n) [] := by
    refine ⟨?_, List.nodup_singleton _, by simp⟩
    intro a ha
    rcases List.mem_cons.mp ha with h | h
    · subst h
      exact Nat.le_of_eq (new_distGet_zero h1)
    · exact absurd h (List.not_mem_nil a)
  exact (runTrace_strict ops (LinearDijkstra.new n) [] hT).2

/-- Witness for the amended C10 on the counterexample run: position 1 is
returned twice, with costs 1 then 0. -/
theorem C10_amended_witness :
    (1 ≤ 2 ∧ ∀ st : State, SolverOp.push st ∈
        [SolverOp.pop, SolverOp.pop, SolverOp.push ⟨0, 1⟩, SolverOp.pop] →
      st.position < 2) ∧
    List.Pairwise (fun a b : State => a.position = b.position → b.cost < a.cost)
      (runTrace (LinearDijkstra.new 2)
        [SolverOp.pop, SolverOp.pop, SolverOp.push ⟨0, 1⟩, SolverOp.pop]) :=
  ⟨⟨by decide, by intro st hst; simp at hst; subst hst; decide⟩,
    C10_amended_strictly_decreasing (by decide) _
      (by intro st hst; simp at hst; subst hst; decide)⟩

/-! ## Faithfulness of the heap model

`heapInsert` keeps the list sorted greatest-first under the `Ord` of `State`,
so the head taken by the model's `pop` is a greatest element — exactly what
`BinaryHeap::pop` returns. -/

/-- Characterisation of strict "less" in the heap order. -/
theorem stateCmp_lt_iff (a b : State) :
    stateCmp a b = Ordering.lt ↔
      (b.cost < a.cost ∨ (a.cost = b.cost ∧ a.position < b.position)) := by
  unfold stateCmp
  rcases Nat.lt_trichotomy a.cost b.cost with h | h | h
  · rw [Nat.compare_eq_gt.mpr h]
    show Ordering.gt = Ordering.lt ↔ _
    constructor
    · intro hc
      cases hc
    · rintro (hc | ⟨hc, _⟩) <;> omega
  · rw [Nat.compare_eq_eq.mpr h.symm]
    show compare a.position b.position = Ordering.lt ↔ _
    rw [Nat.compare_eq_lt]
    constructor
    · intro hp
      exact Or.inr ⟨h, hp⟩
    · rintro (hc | ⟨_, hp⟩)
      · omega
      · exact hp
  · rw [Nat.compare_eq_lt.mpr h]
    show Ordering.lt = Ordering.lt ↔ _
    exact ⟨fun _ => Or.inl h, fun _ => rfl⟩

/-- The heap lists are kept sorted in decreasing heap order: every element is
at least (in the `Ord` of `State`) everything after it. -/
def HeapSorted (h : List State) : Prop :=
  List.Pairwise (fun a b => stateCmp a b ≠ Ordering.lt) h

theorem stateCmp_not_lt_trans {a b c : State} (hab : stateCmp a b ≠ Ordering.lt)
    (hbc : stateCmp b c ≠ Ordering.lt) : stateCmp a c ≠ Ordering.lt := by
  intro hc
  rw [stateCmp_lt_iff] at hc
  have h1 : ¬ (b.cost < a.cost ∨ (a.cost = b.cost ∧ a.position < b.position)) :=
    fun hx => hab ((stateCmp_lt_iff a b).mpr hx)
  have h2 : ¬ (c.cost < b.cost ∨ (b.cost = c.cost ∧ b.position < c.position)) :=
    fun hx => hbc ((stateCmp_lt_iff b c).mpr hx)
  omega

theorem stateCmp_not_lt_of_lt {a b : State} (h : stateCmp a b = Ordering.lt) :
    stateCmp b a ≠ Ordering.lt := by
  intro hc
  rw [stateCmp_lt_iff] at h hc
  omega

theorem heapInsert_sorted {st : State} : ∀ {h : List State},
    HeapSorted h → HeapSorted (heapInsert st h)
  | [], _ => List.pairwise_singleton _ _
  | x :: xs, hs => by
      obtain ⟨hx, hxs⟩ := List.pairwise_cons.mp hs
      simp only [heapInsert]
      split
      · case isTrue hlt =>
          refine List.pairwise_cons.mpr ⟨?_, heapInsert_sorted hxs⟩
          intro y hy
          rcases mem_heapInsert.mp hy with h1 | h1
          · rw [h1]
            exact stateCmp_not_lt_of_lt hlt
          · exact hx y h1
      · case isFalse hge =>
          refine List.pairwise_cons.mpr ⟨?_, hs⟩
          intro y hy
          rcases List.mem_cons.mp hy with h1 | h1
          · rw [h1]
            exact hge
          · exact stateCmp_not_lt_trans hge (hx y h1)

/-- The head of a sorted heap is a greatest element: the model's `pop` takes
exactly what `BinaryHeap::pop` would return. -/
theorem sorted_head_greatest {x : State} {xs : List State}
    (hs : HeapSorted (x :: xs)) : ∀ y ∈ x :: xs, stateCmp x y ≠ Ordering.lt := by
  intro y hy
  rcases List.mem_cons.mp hy with h | h
  · rw [h]
    intro hc
    rw [stateCmp_lt_iff] at hc
    omega
  · exact (List.pairwise_cons.mp hs).1 y h

/-! ## Sanity checks of the executable model -/

example : (LinearDijkstra.new 3).distances = [0, usizeMAX, usizeMAX] := by decide
example : ((LinearDijkstra.new 2).pop).1 = some ⟨0, 0⟩ := by decide
example : (solve 1 [0]).distances = [0] := by decide
example : (solve 3 [2, 2, 0]).distances = [0, 1, 1] := by decide
example : (solve 5 [0, 1, 2, 3, 4]).distances = [0, 1, 2, 3, 4] := by decide
